import Mathlib

/-!
Verification of the `near-gas` crate (`src/lib.rs`): a `NearGas` quantity type
backed by a `u64` magnitude, a `FromStr` parser for decimal literals with a
gas-unit suffix, checked/saturating arithmetic, and a serde string encoding.

Rust strings are embedded as `List Char`; `u64` values as `Nat`, with
wraparound written as an explicit `% 2 ^ 64` exactly where the Rust code
wraps, and checked operations guarded by comparisons against `2 ^ 64 - 1`.
Byte indices (as produced by `str::find` and consumed by `str::split_at`)
are tracked through the UTF-8 byte length of each character, so that the
panic behaviour of `split_at` is modelled faithfully.
-/

/-- The modulus of the Rust `u64` type. -/
def U64_MOD : Nat := 2 ^ 64

/-- `u64::MAX`. -/
def U64_MAX : Nat := 2 ^ 64 - 1

/-- `const ONE_TERA_GAS: u64 = 10u64.pow(12);` -/
def ONE_TERA_GAS : Nat := 10 ^ 12

/-- `const ONE_GIGA_GAS: u64 = 10u64.pow(9);` -/
def ONE_GIGA_GAS : Nat := 10 ^ 9

/-- `pub struct NearGas { inner: u64 }` (the `inner` field of well-formed
values is below `2 ^ 64`; theorems that need the bound state it). -/
structure NearGas where
  inner : Nat
deriving DecidableEq, Repr

/-- `pub const fn from_gas(inner: u64) -> Self { Self { inner } }` -/
def NearGas.from_gas (inner : Nat) : NearGas := ⟨inner⟩

/-- `pub const fn as_gas(self) -> u64 { self.inner }` -/
def NearGas.as_gas (g : NearGas) : Nat := g.inner

/-- `pub const fn from_tgas(mut inner: u64) -> Self { inner *= ONE_TERA_GAS; Self { inner } }`
(the `u64` multiplication wraps modulo `2 ^ 64`). -/
def NearGas.from_tgas (n : Nat) : NearGas := ⟨n * ONE_TERA_GAS % U64_MOD⟩

/-- `pub const fn from_ggas(mut inner: u64) -> Self { inner *= ONE_GIGA_GAS; Self { inner } }` -/
def NearGas.from_ggas (n : Nat) : NearGas := ⟨n * ONE_GIGA_GAS % U64_MOD⟩

/-- `pub const fn as_tgas(self) -> u64 { self.inner / ONE_TERA_GAS }` -/
def NearGas.as_tgas (g : NearGas) : Nat := g.inner / ONE_TERA_GAS

/-- `pub const fn as_ggas(self) -> u64 { self.inner / ONE_GIGA_GAS }` -/
def NearGas.as_ggas (g : NearGas) : Nat := g.inner / ONE_GIGA_GAS

/-- `pub fn checked_add(self, rhs: NearGas) -> Option<Self>`, by way of
`u64::checked_add`, which returns `None` iff the exact sum exceeds `u64::MAX`. -/
def NearGas.checked_add (a b : NearGas) : Option NearGas :=
  if a.inner + b.inner ≤ U64_MAX then some ⟨a.inner + b.inner⟩ else none

/-- `pub fn saturating_add(self, rhs: NearGas) -> NearGas`, by way of
`u64::saturating_add`. -/
def NearGas.saturating_add (a b : NearGas) : NearGas :=
  ⟨min (a.inner + b.inner) U64_MAX⟩

/-- `pub fn checked_div(self, rhs: u64) -> Option<Self>`, by way of
`u64::checked_div`: `None` on a zero divisor, otherwise the truncating quotient. -/
def NearGas.checked_div (a : NearGas) (rhs : Nat) : Option NearGas :=
  if rhs = 0 then none else some ⟨a.inner / rhs⟩

/-- `pub fn saturating_div(self, rhs: u64) -> NearGas`: an explicit zero-divisor
check returning `NearGas::from_gas(0)`, otherwise `u64::saturating_div`
(plain truncating division for unsigned operands). -/
def NearGas.saturating_div (a : NearGas) (rhs : Nat) : NearGas :=
  if rhs = 0 then ⟨0⟩ else ⟨a.inner / rhs⟩

/-- `char::is_ascii_alphabetic`. -/
def isAsciiAlphabetic (c : Char) : Bool :=
  (65 ≤ c.toNat && c.toNat ≤ 90) || (97 ≤ c.toNat && c.toNat ≤ 122)

/-- `char::is_ascii_digit`. -/
def isAsciiDigit (c : Char) : Bool :=
  48 ≤ c.toNat && c.toNat ≤ 57

/-- The Unicode `White_Space` code points, the set trimmed by Rust `str::trim`. -/
def wsList : List Char :=
  [9, 10, 11, 12, 13, 32, 133, 160, 0x1680, 0x2000, 0x2001, 0x2002, 0x2003, 0x2004,
   0x2005, 0x2006, 0x2007, 0x2008, 0x2009, 0x200A, 0x2028, 0x2029, 0x202F, 0x205F,
   0x3000].map Char.ofNat

/-- `char::is_whitespace`. -/
def isRustWhitespace (c : Char) : Bool := wsList.contains c

/-- `u8::to_ascii_uppercase`, characterwise (which is what
`str::to_ascii_uppercase` does to a UTF-8 string). -/
def toAsciiUppercase (c : Char) : Char :=
  if 97 ≤ c.toNat && c.toNat ≤ 122 then Char.ofNat (c.toNat - 32) else c

/-- The number of bytes of the UTF-8 encoding of a character. -/
def utf8Len (c : Char) : Nat :=
  if c.toNat < 0x80 then 1 else if c.toNat < 0x800 then 2
  else if c.toNat < 0x10000 then 3 else 4

/-- The byte length of the UTF-8 encoding of a string, as Rust `str::len`. -/
def byteLen (l : List Char) : Nat := (l.map utf8Len).sum

/-- Leading-whitespace removal (half of `str::trim`). -/
def trimLeft (l : List Char) : List Char := l.dropWhile isRustWhitespace

/-- Trailing-whitespace removal (the other half of `str::trim`). -/
def trimRight (l : List Char) : List Char := (l.reverse.dropWhile isRustWhitespace).reverse

/-- `str::trim`. -/
def trim (l : List Char) : List Char := trimRight (trimLeft l)

/-- `str::to_ascii_uppercase`. -/
def toUpperList (l : List Char) : List Char := l.map toAsciiUppercase

/-- `s.find(|c: char| c.is_ascii_alphabetic())`: the byte index of the first
ASCII-alphabetic character, if any. -/
def findAlphaByteIdx : List Char → Option Nat
  | [] => none
  | c :: cs =>
    if isAsciiAlphabetic c then some 0
    else (findAlphaByteIdx cs).map (fun i => utf8Len c + i)

/-- `str::split_at(mid)` with `mid` a byte index: `none` models the panic when
`mid` exceeds the byte length or falls outside a character boundary. -/
def splitAtByte : List Char → Nat → Option (List Char × List Char)
  | l, 0 => some ([], l)
  | [], _ + 1 => none
  | c :: cs, n + 1 =>
    if utf8Len c ≤ n + 1 then
      (splitAtByte cs (n + 1 - utf8Len c)).map (fun p => (c :: p.1, p.2))
    else none

/-- The numeric value of a run of ASCII digit characters (most significant
first), with an accumulator: the folding done by `str::parse::<u64>`. -/
def natOfDigitsAux (acc : Nat) : List Char → Nat
  | [] => acc
  | c :: cs => natOfDigitsAux (acc * 10 + (c.toNat - 48)) cs

/-- The numeric value of a run of ASCII digit characters. -/
def natOfDigits (l : List Char) : Nat := natOfDigitsAux 0 l

/-- Fuelled helper for `trailingZeros10`. -/
def trailingZeros10Aux : Nat → Nat → Nat
  | 0, _ => 0
  | fuel + 1, n => if n % 10 = 0 && n ≠ 0 then trailingZeros10Aux fuel (n / 10) + 1 else 0

/-- The number of trailing zeros in the decimal representation of a number
(the fractional precision afforded by a power-of-ten scale factor). -/
def trailingZeros10 (n : Nat) : Nat := trailingZeros10Aux n n

/-- `pub enum DecimalNumberParsingError` of `src/utils.rs`: `InvalidNumber`
carries the malformed literal text, `LongDecimal` the "too large / not exactly
representable" class (spec section 7). -/
inductive DecimalNumberParsingError where
  | InvalidNumber (s : List Char)
  | LongDecimal (s : List Char)
deriving DecidableEq, Repr

/-- `pub enum NearGasError` of `src/lib.rs`. -/
inductive NearGasError where
  | IncorrectNumber (e : DecimalNumberParsingError)
  | IncorrectUnit (s : List Char)
deriving DecidableEq, Repr

/-- The result of the Decimal Scaler (`Result<u64, DecimalNumberParsingError>`). -/
inductive DecimalParseResult where
  | ok (value : Nat)
  | error (e : DecimalNumberParsingError)
deriving DecidableEq, Repr

/-- The observable behaviour of `FromStr::from_str`: `Ok`, `Err`, or a panic. -/
inductive FromStrResult where
  | ok (gas : NearGas)
  | err (e : NearGasError)
  | panics
deriving DecidableEq, Repr

/-- Modelled from the spec: `parse_decimal_number` (the Decimal Scaler) lives in
`src/utils.rs`, which is not among the provided sources — only its caller
`from_str` and the crate tests are. This definition follows section 4.1 of the
spec: reject an empty literal and any leading `-` as an invalid number; with no
dot, require a pure digit run and scale it by checked multiplication; with one
dot, split into whole and fractional digit runs (rejecting a second dot, any
non-digit, and the lone-dot literal with zero digits), reject a fractional part
longer than the trailing zeros of the scale factor, and compute
`whole * scale + frac * 10 ^ (trailing_zeros - frac_digits)` with checked
arithmetic; an out-of-range result is the "too large" error class. -/
def parse_decimal_number (s : List Char) (pref_const : Nat) : DecimalParseResult :=
  if s.isEmpty then .error (.InvalidNumber s)
  else if s.head? = some '-' then .error (.InvalidNumber s)
  else
    let dots := s.countP (fun c => c == '.')
    if dots = 0 then
      if s.all isAsciiDigit then
        if natOfDigits s * pref_const ≤ U64_MAX then .ok (natOfDigits s * pref_const)
        else .error (.LongDecimal s)
      else .error (.InvalidNumber s)
    else if dots = 1 then
      let whole := s.takeWhile (fun c => c != '.')
      let fract := (s.dropWhile (fun c => c != '.')).tail
      if whole.all isAsciiDigit && fract.all isAsciiDigit && !(whole.isEmpty && fract.isEmpty) then
        let tz := trailingZeros10 pref_const
        if tz < fract.length then .error (.LongDecimal s)
        else if natOfDigits whole * pref_const + natOfDigits fract * 10 ^ (tz - fract.length) ≤ U64_MAX then
          .ok (natOfDigits whole * pref_const + natOfDigits fract * 10 ^ (tz - fract.length))
        else .error (.LongDecimal s)
      else .error (.InvalidNumber s)
    else .error (.InvalidNumber s)

/-- `impl FromStr for NearGas`, `fn from_str(s: &str)`: uppercase the trimmed
input, find the byte index of the first ASCII-alphabetic character in the
ORIGINAL (untrimmed) input, `split_at` that index in the trimmed uppercased
copy (panicking when it is out of bounds or off a character boundary), match
the suffix against the four unit tokens, and delegate the re-trimmed numeric
prefix to `parse_decimal_number` with the selected scale factor. -/
def from_str (s : List Char) : FromStrResult :=
  let upcase := toUpperList (trim s)
  match findAlphaByteIdx s with
  | none => .err (.IncorrectUnit s)
  | some i =>
    match splitAtByte upcase i with
    | none => .panics
    | some (num, currency) =>
      if currency = "TGAS".toList ∨ currency = "TERAGAS".toList then
        match parse_decimal_number (trim num) ONE_TERA_GAS with
        | .ok n => .ok (NearGas.from_gas n)
        | .error e => .err (.IncorrectNumber e)
      else if currency = "GIGAGAS".toList ∨ currency = "GGAS".toList then
        match parse_decimal_number (trim num) ONE_GIGA_GAS with
        | .ok n => .ok (NearGas.from_gas n)
        | .error e => .err (.IncorrectNumber e)
      else .err (.IncorrectUnit s)

/-- The decimal digit character for a digit value. -/
def digitToChar (d : Nat) : Char := Char.ofNat (48 + d)

/-- Fuelled helper for `natToDecChars`: decimal digits, least significant first. -/
def decCharsAux : Nat → Nat → List Char
  | 0, _ => []
  | fuel + 1, n => if n = 0 then [] else digitToChar (n % 10) :: decCharsAux fuel (n / 10)

/-- The decimal rendering of a natural number, as produced by Rust
`write!(w, "{}", self.inner)` for a `u64`. -/
def natToDecChars (n : Nat) : List Char :=
  if n = 0 then ['0'] else (decCharsAux n n).reverse

/-- `impl Serialize for NearGas`: render `inner` in decimal into a 20-byte
buffer (failing — `none` — if it does not fit), check the written bytes are
valid UTF-8 (an ASCII check suffices for a decimal rendering), and serialize
the resulting string. -/
def serializeNearGas (g : NearGas) : Option (List Char) :=
  let rendered := natToDecChars g.inner
  if rendered.length ≤ 20 && rendered.all (fun c => c.toNat ≤ 127) then some rendered
  else none

/-- `str::parse::<u64>` as used by `impl Deserialize for NearGas`: an optional
leading `+`, then a nonempty run of ASCII digits whose value fits in a `u64`;
anything else fails. -/
def parse_u64 (s : List Char) : Option Nat :=
  let digits := if s.head? = some '+' then s.tail else s
  if digits.isEmpty then none
  else if digits.all isAsciiDigit then
    if natOfDigits digits ≤ U64_MAX then some (natOfDigits digits) else none
  else none

/-- `impl Deserialize for NearGas`: deserialize a string, `str::parse::<u64>`
it, and wrap with `NearGas::from_gas`. -/
def deserializeNearGas (s : List Char) : Option NearGas :=
  (parse_u64 s).map NearGas.from_gas

/-- Spec section 4.2 step 2: the candidate unit suffix of an input — the
uppercased portion of the trimmed input from its first ASCII-alphabetic
character onward. -/
def unitSuffix (s : List Char) : List Char :=
  toUpperList ((trim s).dropWhile (fun c => !isAsciiAlphabetic c))

/-- The four recognized unit tokens. -/
def recognizedUnits : List (List Char) :=
  ["TGAS", "TERAGAS", "GIGAGAS", "GGAS"].map String.toList

/-- The number of fractional digits of a decimal literal (zero when it has no
dot): the length of what follows the first `.`. -/
def fracDigits (s : List Char) : Nat :=
  ((s.dropWhile (fun c => c != '.')).tail).length

/-- The integer numerator of a decimal literal read over a denominator of
`10 ^ fracDigits`: its digits with the dot removed. -/
def litNumerator (s : List Char) : Nat :=
  natOfDigits (s.filter (fun c => c != '.'))

/-- A decimal literal malformed in one of the ways claim C4 lists: more than
one dot, embedded whitespace, a leading minus sign, or no digits at all. -/
def malformedLiteral (s : List Char) : Bool :=
  (1 < s.countP (fun c => c == '.')) || s.any isRustWhitespace ||
    (s.head? == some '-') || !(s.any isAsciiDigit)

/-! ## Basic facts about characters and digit runs -/

theorem mem_wsList_of_isRustWhitespace {c : Char} (h : isRustWhitespace c = true) :
    c ∈ wsList := by
  simpa [isRustWhitespace, List.contains, List.elem_iff] using h

theorem isRustWhitespace_of_mem {c : Char} (h : c ∈ wsList) :
    isRustWhitespace c = true := by
  simpa [isRustWhitespace, List.contains, List.elem_iff] using h

theorem isAsciiDigit_eq_false_of_ws {c : Char} (h : isRustWhitespace c = true) :
    isAsciiDigit c = false := by
  have hm := mem_wsList_of_isRustWhitespace h
  have hall : ∀ x ∈ wsList, isAsciiDigit x = false := by decide
  exact hall c hm

theorem ws_ne_dot {c : Char} (h : isRustWhitespace c = true) : c ≠ '.' := by
  have hm := mem_wsList_of_isRustWhitespace h
  have hall : ∀ x ∈ wsList, x ≠ '.' := by decide
  exact hall c hm

theorem isRustWhitespace_eq_false_of_alpha {c : Char} (h : isAsciiAlphabetic c = true) :
    isRustWhitespace c = false := by
  by_contra hw
  have hw' : isRustWhitespace c = true := by
    cases hb : isRustWhitespace c
    · exact absurd hb hw
    · rfl
  have hm := mem_wsList_of_isRustWhitespace hw'
  have hall : ∀ x ∈ wsList, isAsciiAlphabetic x = false := by decide
  rw [hall c hm] at h
  exact Bool.false_ne_true h

theorem digit_bne_dot {c : Char} (h : isAsciiDigit c = true) : (c != '.') = true := by
  rw [bne_iff_ne]
  rintro rfl
  exact absurd h (by decide)

theorem natOfDigitsAux_nil (acc : Nat) : natOfDigitsAux acc [] = acc := rfl

theorem natOfDigitsAux_cons (acc : Nat) (c : Char) (cs : List Char) :
    natOfDigitsAux acc (c :: cs) = natOfDigitsAux (acc * 10 + (c.toNat - 48)) cs := rfl

theorem natOfDigits_nil : natOfDigits [] = 0 := rfl

theorem natOfDigitsAux_append (acc : Nat) (xs ys : List Char) :
    natOfDigitsAux acc (xs ++ ys) = natOfDigitsAux (natOfDigitsAux acc xs) ys := by
  induction xs generalizing acc with
  | nil => rw [List.nil_append, natOfDigitsAux_nil]
  | cons c cs ih => rw [List.cons_append, natOfDigitsAux_cons, natOfDigitsAux_cons, ih]

theorem natOfDigitsAux_eq (acc : Nat) (l : List Char) :
    natOfDigitsAux acc l = acc * 10 ^ l.length + natOfDigits l := by
  induction l generalizing acc with
  | nil => rw [natOfDigitsAux_nil, natOfDigits_nil]; simp
  | cons c cs ih =>
    rw [natOfDigitsAux_cons, ih]
    have hrhs : natOfDigits (c :: cs) = (c.toNat - 48) * 10 ^ cs.length + natOfDigits cs := by
      show natOfDigitsAux 0 (c :: cs) = _
      rw [natOfDigitsAux_cons, ih]
      ring_nf
    rw [hrhs, List.length_cons, pow_succ]
    ring

theorem natOfDigits_append (xs ys : List Char) :
    natOfDigits (xs ++ ys) = natOfDigits xs * 10 ^ ys.length + natOfDigits ys := by
  unfold natOfDigits
  rw [natOfDigitsAux_append, natOfDigitsAux_eq]
  rfl

/-! ## The Quantity wrapper claims (C6, C7, C8) -/

/-- C6: `from_tgas(n).as_gas() == n * 10^12` and `from_ggas(n).as_gas() == n * 10^9`
whenever the product fits in 64 bits; for larger `n` the construction wraps
modulo `2^64` like native unsigned multiplication — no overflow check. -/
theorem C6_scale_construction :
    ∀ n : Nat,
      ((NearGas.from_tgas n).as_gas = n * ONE_TERA_GAS % U64_MOD ∧
        (NearGas.from_ggas n).as_gas = n * ONE_GIGA_GAS % U64_MOD) ∧
      (n * ONE_TERA_GAS < U64_MOD → (NearGas.from_tgas n).as_gas = n * ONE_TERA_GAS) ∧
      (n * ONE_GIGA_GAS < U64_MOD → (NearGas.from_ggas n).as_gas = n * ONE_GIGA_GAS) := by
  intro n
  refine ⟨⟨rfl, rfl⟩, fun h => ?_, fun h => ?_⟩ <;>
    simp [NearGas.from_tgas, NearGas.from_ggas, NearGas.as_gas, Nat.mod_eq_of_lt h]

theorem C6_scale_construction_witness :
    (5 * ONE_TERA_GAS < U64_MOD ∧ (NearGas.from_tgas 5).as_gas = 5 * ONE_TERA_GAS) ∧
    (7 * ONE_GIGA_GAS < U64_MOD ∧ (NearGas.from_ggas 7).as_gas = 7 * ONE_GIGA_GAS) :=
  ⟨⟨by decide, (C6_scale_construction 5).2.1 (by decide)⟩,
    ⟨by decide, (C6_scale_construction 7).2.2 (by decide)⟩⟩

/-- C7: `checked_add` returns `None` exactly when the exact sum exceeds
`u64::MAX`, otherwise `Some` of the exact sum; `saturating_add` clamps to
`u64::MAX` in exactly that overflow case and is exact otherwise. -/
theorem C7_add_overflow :
    ∀ a b : NearGas,
      (a.checked_add b = none ↔ U64_MAX < a.as_gas + b.as_gas) ∧
      (U64_MAX < a.as_gas + b.as_gas → a.saturating_add b = NearGas.from_gas U64_MAX) ∧
      (a.as_gas + b.as_gas ≤ U64_MAX →
        a.checked_add b = some (NearGas.from_gas (a.as_gas + b.as_gas)) ∧
        a.saturating_add b = NearGas.from_gas (a.as_gas + b.as_gas)) := by
  intro a b
  refine ⟨?_, fun h => ?_, fun h => ⟨?_, ?_⟩⟩
  · simp only [NearGas.checked_add, NearGas.as_gas]
    by_cases h : a.inner + b.inner ≤ U64_MAX
    · simp [h, Nat.not_lt.mpr h]
    · simp [h, Nat.not_le.mp h]
  · simp only [NearGas.saturating_add, NearGas.from_gas, NearGas.as_gas] at *
    rw [Nat.min_eq_right (Nat.le_of_lt h)]
  · simp [NearGas.checked_add, NearGas.from_gas, NearGas.as_gas] at *
    exact h
  · simp only [NearGas.saturating_add, NearGas.from_gas, NearGas.as_gas] at *
    rw [Nat.min_eq_left h]

theorem C7_add_overflow_witness :
    (U64_MAX < (NearGas.from_gas (U64_MAX - 2)).as_gas + (NearGas.from_gas 3).as_gas ∧
      (NearGas.from_gas (U64_MAX - 2)).checked_add (NearGas.from_gas 3) = none ∧
      (NearGas.from_gas (U64_MAX - 2)).saturating_add (NearGas.from_gas 3) =
        NearGas.from_gas U64_MAX) ∧
    (NearGas.from_gas (U64_MAX - 2)).checked_add (NearGas.from_gas 2) =
      some (NearGas.from_gas (U64_MAX - 2 + 2)) :=
  ⟨⟨by decide,
    (C7_add_overflow (NearGas.from_gas (U64_MAX - 2)) (NearGas.from_gas 3)).1.mpr (by decide),
    (C7_add_overflow (NearGas.from_gas (U64_MAX - 2)) (NearGas.from_gas 3)).2.1 (by decide)⟩,
   ((C7_add_overflow (NearGas.from_gas (U64_MAX - 2)) (NearGas.from_gas 2)).2.2 (by decide)).1⟩

/-- C8: `checked_div` by zero is `None`, `saturating_div` by zero is the zero
quantity (not the maximum), and both are the truncating quotient for any
nonzero divisor. -/
theorem C8_div_by_zero :
    ∀ (a : NearGas) (d : Nat),
      a.checked_div 0 = none ∧
      a.saturating_div 0 = NearGas.from_gas 0 ∧
      (d ≠ 0 →
        a.checked_div d = some (NearGas.from_gas (a.as_gas / d)) ∧
        a.saturating_div d = NearGas.from_gas (a.as_gas / d)) := by
  intro a d
  refine ⟨by simp [NearGas.checked_div], by simp [NearGas.saturating_div, NearGas.from_gas],
    fun h => ⟨?_, ?_⟩⟩ <;>
    simp [NearGas.checked_div, NearGas.saturating_div, NearGas.from_gas, NearGas.as_gas, h]

theorem C8_div_by_zero_witness :
    (NearGas.from_gas 10).checked_div 3 = some (NearGas.from_gas 3) ∧
    (NearGas.from_gas 10).saturating_div 3 = NearGas.from_gas 3 :=
  (C8_div_by_zero (NearGas.from_gas 10) 3).2.2 (by decide)

/-! ## The whitespace mis-split (C2, C5) -/

/-- C2: `from_str` does NOT ignore leading whitespace of the whole input — the
alphabetic-character byte index is found in the untrimmed input but applied to
the trimmed copy, so `" 1 TGas"` mis-splits into `"1 T"` / `"GAS"` and fails
with an unrecognized-unit error even though `"1 TGas"` parses successfully. -/
theorem C2_trim_divergence :
    from_str (" 1 TGas".toList) = .err (.IncorrectUnit (" 1 TGas".toList)) ∧
    from_str ("1 TGas".toList) = .ok (NearGas.from_gas ONE_TERA_GAS) := by
  constructor <;> decide

/-- C5: `from_str` is not total — on `"  a"` the first alphabetic character
sits at byte index 2 of the untrimmed input while the trimmed uppercased copy
has length 1, so `split_at` panics. -/
theorem C5_split_at_panics :
    from_str ("  a".toList) = .panics ∧
    from_str ("1 TGas".toList) = .ok (NearGas.from_gas ONE_TERA_GAS) := by
  constructor <;> decide

/-! ## Facts about the decimal literal decomposition -/

theorem trailingZeros10_tera : trailingZeros10 ONE_TERA_GAS = 12 := by decide

theorem trailingZeros10_giga : trailingZeros10 ONE_GIGA_GAS = 9 := by decide

theorem digit_ne_minus {c : Char} (h : isAsciiDigit c = true) : c ≠ '-' := by
  rintro rfl
  exact absurd h (by decide)

theorem dropWhile_dot_decomp {s : List Char} (h : ∃ c ∈ s, c = '.') :
    s.dropWhile (fun c => c != '.') = '.' :: (s.dropWhile (fun c => c != '.')).tail := by
  induction s with
  | nil => rcases h with ⟨c, hc, _⟩; cases hc
  | cons a t ih =>
    by_cases ha : a = '.'
    · subst ha
      rw [List.dropWhile_cons]
      simp
    · have ha' : (a != '.') = true := by simp [bne_iff_ne, ha]
      rw [List.dropWhile_cons, if_pos ha']
      apply ih
      rcases h with ⟨c, hc, hcd⟩
      rcases List.mem_cons.mp hc with h1 | h2
      · exact absurd (h1.symm.trans hcd) ha
      · exact ⟨c, h2, hcd⟩

theorem dot_split {s : List Char} (h : ∃ c ∈ s, c = '.') :
    s = s.takeWhile (fun c => c != '.') ++ '.' :: (s.dropWhile (fun c => c != '.')).tail := by
  have h1 := List.takeWhile_append_dropWhile (fun c => c != '.') s
  rw [dropWhile_dot_decomp h] at h1
  exact h1.symm

theorem exists_dot_of_countP {s : List Char} (h : s.countP (fun c => c == '.') ≠ 0) :
    ∃ c ∈ s, c = '.' := by
  by_contra hno
  push_neg at hno
  apply h
  rw [List.countP_eq_zero]
  intro a ha
  simpa using hno a ha

theorem takeWhile_dropWhile_append_cons {p : Char → Bool} {w rest : List Char} {d : Char}
    (hw : ∀ c ∈ w, p c = true) (hd : p d = false) :
    (w ++ d :: rest).takeWhile p = w ∧ (w ++ d :: rest).dropWhile p = d :: rest := by
  induction w with
  | nil => simp [List.takeWhile_cons, List.dropWhile_cons, hd]
  | cons a t ih =>
    have ha : p a = true := hw a (by simp)
    have ht : ∀ c ∈ t, p c = true := fun c hc => hw c (by simp [hc])
    rcases ih ht with ⟨h1, h2⟩
    constructor
    · rw [List.cons_append, List.takeWhile_cons, if_pos ha, h1]
    · rw [List.cons_append, List.dropWhile_cons, if_pos ha, h2]

theorem digit_beq_dot_false {c : Char} (h : isAsciiDigit c = true) : (c == '.') = false := by
  have hne : c ≠ '.' := by rintro rfl; exact absurd h (by decide)
  simp [hne]

theorem parse_ok_cases {s : List Char} {scale n : Nat}
    (h : parse_decimal_number s scale = .ok n) :
    (s.countP (fun c => c == '.') = 0 ∧ s.all isAsciiDigit = true ∧
      n = natOfDigits s * scale) ∨
    (∃ w f : List Char, s = w ++ '.' :: f ∧
      w.all isAsciiDigit = true ∧ f.all isAsciiDigit = true ∧
      f.length ≤ trailingZeros10 scale ∧
      n = natOfDigits w * scale +
        natOfDigits f * 10 ^ (trailingZeros10 scale - f.length)) := by
  simp only [parse_decimal_number] at h
  by_cases he : s.isEmpty = true
  · rw [if_pos he] at h
    simp at h
  · rw [if_neg he] at h
    by_cases hm : s.head? = some '-'
    · rw [if_pos hm] at h
      simp at h
    · rw [if_neg hm] at h
      by_cases hd0 : s.countP (fun c => c == '.') = 0
      · rw [if_pos hd0] at h
        by_cases hall : s.all isAsciiDigit = true
        · rw [if_pos hall] at h
          by_cases hle : natOfDigits s * scale ≤ U64_MAX
          · rw [if_pos hle] at h
            injection h with h
            exact Or.inl ⟨hd0, hall, h.symm⟩
          · rw [if_neg hle] at h
            simp at h
        · rw [if_neg hall] at h
          simp at h
      · rw [if_neg hd0] at h
        by_cases hd1 : s.countP (fun c => c == '.') = 1
        · rw [if_pos hd1] at h
          have hex : ∃ c ∈ s, c = '.' := exists_dot_of_countP (by rw [hd1]; omega)
          have hs := dot_split hex
          by_cases hcond :
              ((s.takeWhile (fun c => c != '.')).all isAsciiDigit &&
                ((s.dropWhile (fun c => c != '.')).tail).all isAsciiDigit &&
                !((s.takeWhile (fun c => c != '.')).isEmpty &&
                  ((s.dropWhile (fun c => c != '.')).tail).isEmpty)) = true
          · rw [if_pos hcond] at h
            by_cases hlt :
                trailingZeros10 scale < ((s.dropWhile (fun c => c != '.')).tail).length
            · rw [if_pos hlt] at h
              simp at h
            · rw [if_neg hlt] at h
              by_cases hle2 :
                  natOfDigits (s.takeWhile (fun c => c != '.')) * scale +
                    natOfDigits ((s.dropWhile (fun c => c != '.')).tail) *
                      10 ^ (trailingZeros10 scale -
                        ((s.dropWhile (fun c => c != '.')).tail).length) ≤ U64_MAX
              · rw [if_pos hle2] at h
                injection h with h
                simp only [Bool.and_eq_true] at hcond
                exact Or.inr ⟨s.takeWhile (fun c => c != '.'),
                  (s.dropWhile (fun c => c != '.')).tail, hs,
                  hcond.1.1, hcond.1.2, Nat.le_of_not_lt hlt, h.symm⟩
              · rw [if_neg hle2] at h
                simp at h
          · rw [if_neg hcond] at h
            simp at h
        · rw [if_neg hd1] at h
          simp at h

theorem scale_eq_pow {scale : Nat} (hscale : scale = ONE_GIGA_GAS ∨ scale = ONE_TERA_GAS) :
    scale = 10 ^ trailingZeros10 scale := by
  rcases hscale with rfl | rfl <;> decide

/-- C1: every successfully parsed literal scales exactly — the value returned
times `10 ^ (number of fractional digits)` equals the literal's digit numerator
times the scale factor, with no rounding; `parse("0.5 TGas")` equals
`from_ggas(500)`; a fractional part longer than the scale factor's trailing
zeros is always rejected (never truncated), e.g. `"0.0000000005 GGas"`. -/
theorem C1_exact_scaling :
    (∀ (s : List Char) (scale n : Nat),
        (scale = ONE_GIGA_GAS ∨ scale = ONE_TERA_GAS) →
        parse_decimal_number s scale = .ok n →
        n * 10 ^ fracDigits s = litNumerator s * scale) ∧
    from_str ("0.5 TGas".toList) = .ok (NearGas.from_ggas 500) ∧
    (∀ (w f : List Char) (scale : Nat),
        (scale = ONE_GIGA_GAS ∨ scale = ONE_TERA_GAS) →
        w.all isAsciiDigit = true → f.all isAsciiDigit = true →
        trailingZeros10 scale < f.length →
        parse_decimal_number (w ++ '.' :: f) scale =
          .error (.LongDecimal (w ++ '.' :: f))) ∧
    from_str ("0.0000000005 GGas".toList) =
      .err (.IncorrectNumber (.LongDecimal ("0.0000000005".toList))) := by
  refine ⟨?_, by decide, ?_, by decide⟩
  · intro s scale n hscale h
    have hpow := scale_eq_pow hscale
    rcases parse_ok_cases h with ⟨hd, hall, hn⟩ | ⟨w, f, hs, hwall, hfall, hfle, hn⟩
    · have hnodot : ∀ c ∈ s, (c != '.') = true := by
        intro c hc
        have hx := List.countP_eq_zero.mp hd c hc
        simp only [beq_iff_eq] at hx
        simp [bne_iff_ne, hx]
      have hdw : s.dropWhile (fun c => c != '.') = [] :=
        List.dropWhile_eq_nil_iff.mpr hnodot
      have hfrac : fracDigits s = 0 := by
        unfold fracDigits
        rw [hdw]
        rfl
      have hlit : litNumerator s = natOfDigits s := by
        unfold litNumerator
        rw [List.filter_eq_self.mpr hnodot]
      rw [hfrac, hlit, hn]
      ring
    · have hwd : ∀ c ∈ w, ((fun c => c != '.') c) = true := fun c hc =>
        digit_bne_dot (List.all_eq_true.mp hwall c hc)
      have hfd2 : ∀ c ∈ f, (c != '.') = true := fun c hc =>
        digit_bne_dot (List.all_eq_true.mp hfall c hc)
      rcases @takeWhile_dropWhile_append_cons (fun c => c != '.') w f '.' hwd (by decide)
        with ⟨htw, hdw⟩
      have hfrac : fracDigits s = f.length := by
        unfold fracDigits
        rw [hs, hdw]
        rfl
      have hlit : litNumerator s = natOfDigits w * 10 ^ f.length + natOfDigits f := by
        unfold litNumerator
        rw [hs, List.filter_append, List.filter_eq_self.mpr hwd, List.filter_cons]
        have hdot : (('.' != '.') = true) = False := by decide
        rw [if_neg (by simp)]
        rw [List.filter_eq_self.mpr hfd2, natOfDigits_append]
      rw [hfrac, hlit, hn]
      set t := trailingZeros10 scale with htdef
      calc (natOfDigits w * scale + natOfDigits f * 10 ^ (t - f.length)) * 10 ^ f.length
          = natOfDigits w * scale * 10 ^ f.length +
            natOfDigits f * (10 ^ (t - f.length) * 10 ^ f.length) := by ring
        _ = natOfDigits w * scale * 10 ^ f.length + natOfDigits f * 10 ^ t := by
            rw [← pow_add, Nat.sub_add_cancel hfle]
        _ = (natOfDigits w * 10 ^ f.length + natOfDigits f) * scale := by
            rw [hpow]
            ring
  · intro w f scale hscale hwall hfall hlen
    have hwd : ∀ c ∈ w, ((fun c => c != '.') c) = true := fun c hc =>
      digit_bne_dot (List.all_eq_true.mp hwall c hc)
    rcases @takeWhile_dropWhile_append_cons (fun c => c != '.') w f '.' hwd (by decide)
      with ⟨htw, hdw⟩
    have hne : ¬((w ++ '.' :: f).isEmpty = true) := by
      cases w <;> simp
    have hhead : ¬((w ++ '.' :: f).head? = some '-') := by
      cases w with
      | nil =>
        intro hx
        exact absurd (Option.some.inj hx) (by decide)
      | cons a t =>
        intro hx
        have ha : isAsciiDigit a = true := List.all_eq_true.mp hwall a (by simp)
        exact digit_ne_minus ha (Option.some.inj hx)
    have hw0 : w.countP (fun c => c == '.') = 0 :=
      List.countP_eq_zero.mpr fun c hc => by
        simp [digit_beq_dot_false (List.all_eq_true.mp hwall c hc)]
    have hf0 : f.countP (fun c => c == '.') = 0 :=
      List.countP_eq_zero.mpr fun c hc => by
        simp [digit_beq_dot_false (List.all_eq_true.mp hfall c hc)]
    have hd1 : (w ++ '.' :: f).countP (fun c => c == '.') = 1 := by
      rw [List.countP_append, List.countP_cons, hw0, hf0]
      simp
    have hd0 : ¬((w ++ '.' :: f).countP (fun c => c == '.') = 0) := by
      rw [hd1]
      omega
    have hfne : f.isEmpty = false := by
      cases f with
      | nil => simp at hlen
      | cons a t => rfl
    have hcond :
        (((w ++ '.' :: f).takeWhile (fun c => c != '.')).all isAsciiDigit &&
          (((w ++ '.' :: f).dropWhile (fun c => c != '.')).tail).all isAsciiDigit &&
          !(((w ++ '.' :: f).takeWhile (fun c => c != '.')).isEmpty &&
            (((w ++ '.' :: f).dropWhile (fun c => c != '.')).tail).isEmpty)) = true := by
      rw [htw, hdw]
      simp [hwall, hfall, hfne]
    have hlt :
        trailingZeros10 scale < (((w ++ '.' :: f).dropWhile (fun c => c != '.')).tail).length := by
      rw [hdw]
      exact hlen
    simp only [parse_decimal_number]
    rw [if_neg hne, if_neg hhead, if_neg hd0, if_pos hd1, if_pos hcond, if_pos hlt]

theorem C1_exact_scaling_witness :
    (parse_decimal_number ("0.5".toList) ONE_TERA_GAS = .ok 500000000000 ∧
      500000000000 * 10 ^ fracDigits ("0.5".toList) =
        litNumerator ("0.5".toList) * ONE_TERA_GAS) ∧
    parse_decimal_number ("0".toList ++ '.' :: "0000000005".toList) ONE_GIGA_GAS =
      .error (.LongDecimal ("0".toList ++ '.' :: "0000000005".toList)) :=
  ⟨⟨by decide,
    C1_exact_scaling.1 ("0.5".toList) ONE_TERA_GAS 500000000000 (Or.inr rfl) (by decide)⟩,
   C1_exact_scaling.2.2.1 ("0".toList) ("0000000005".toList) ONE_GIGA_GAS (Or.inl rfl)
     (by decide) (by decide) (by decide)⟩

/-- C4: a literal with more than one dot, embedded whitespace, a leading minus
sign (including `"-0"`), or no digits at all is rejected by the Decimal Scaler
with the invalid-number error carrying the literal itself — negative input is a
format error, not a range error; through `from_str` this covers the crate tests
`"1.1.1 TeraGas"`, `"1. 0 TeraGas"` and `"-1 TeraGas"`. -/
theorem C4_malformed_literals :
    (∀ (s : List Char) (scale : Nat), malformedLiteral s = true →
        parse_decimal_number s scale = .error (.InvalidNumber s)) ∧
    from_str ("1.1.1 TeraGas".toList) =
      .err (.IncorrectNumber (.InvalidNumber ("1.1.1".toList))) ∧
    from_str ("1. 0 TeraGas".toList) =
      .err (.IncorrectNumber (.InvalidNumber ("1. 0".toList))) ∧
    from_str ("-1 TeraGas".toList) =
      .err (.IncorrectNumber (.InvalidNumber ("-1".toList))) := by
  refine ⟨?_, by decide, by decide, by decide⟩
  intro s scale hm
  simp only [malformedLiteral, Bool.or_eq_true, decide_eq_true_eq, beq_iff_eq,
    Bool.not_eq_true', List.any_eq_true, List.any_eq_false] at hm
  by_cases he : s.isEmpty = true
  · simp only [parse_decimal_number]
    rw [if_pos he]
  · have hsne : s ≠ [] := by
      intro h0
      exact he (List.isEmpty_iff.mpr h0)
    by_cases hmm : s.head? = some '-'
    · simp only [parse_decimal_number]
      rw [if_neg he, if_pos hmm]
    · by_cases hd0 : s.countP (fun c => c == '.') = 0
      · have hallf : ¬(s.all isAsciiDigit = true) := by
          intro hall
          rcases hm with ((h1 | h2) | h3) | h4
          · rw [hd0] at h1
            omega
          · rcases h2 with ⟨c, hc, hwsc⟩
            have hdig := List.all_eq_true.mp hall c hc
            rw [isAsciiDigit_eq_false_of_ws hwsc] at hdig
            exact Bool.false_ne_true hdig
          · exact hmm h3
          · obtain ⟨c, hc⟩ : ∃ c, c ∈ s := by
              cases s with
              | nil => exact absurd rfl hsne
              | cons a t => exact ⟨a, by simp⟩
            have hdig := List.all_eq_true.mp hall c hc
            exact (h4 c hc) hdig
        simp only [parse_decimal_number]
        rw [if_neg he, if_neg hmm, if_pos hd0, if_neg hallf]
      · by_cases hd1 : s.countP (fun c => c == '.') = 1
        · have hex : ∃ c ∈ s, c = '.' := exists_dot_of_countP (by rw [hd1]; omega)
          have hs := dot_split hex
          have hcondf :
              ¬(((s.takeWhile (fun c => c != '.')).all isAsciiDigit &&
                ((s.dropWhile (fun c => c != '.')).tail).all isAsciiDigit &&
                !((s.takeWhile (fun c => c != '.')).isEmpty &&
                  ((s.dropWhile (fun c => c != '.')).tail).isEmpty)) = true) := by
            intro hcond
            simp only [Bool.and_eq_true] at hcond
            obtain ⟨⟨hw, hf⟩, hnemp⟩ := hcond
            rcases hm with ((h1 | h2) | h3) | h4
            · rw [hd1] at h1
              omega
            · rcases h2 with ⟨c, hc, hwsc⟩
              rw [hs] at hc
              rcases List.mem_append.mp hc with hcw | hcd
              · have hdig := List.all_eq_true.mp hw c hcw
                rw [isAsciiDigit_eq_false_of_ws hwsc] at hdig
                exact Bool.false_ne_true hdig
              · rcases List.mem_cons.mp hcd with hceq | hcf
                · exact (ws_ne_dot hwsc) hceq
                · have hdig := List.all_eq_true.mp hf c hcf
                  rw [isAsciiDigit_eq_false_of_ws hwsc] at hdig
                  exact Bool.false_ne_true hdig
            · exact hmm h3
            · have hor :
                  (s.takeWhile (fun c => c != '.')).isEmpty = false ∨
                  ((s.dropWhile (fun c => c != '.')).tail).isEmpty = false := by
                rw [Bool.not_eq_true'] at hnemp
                cases hA : (s.takeWhile (fun c => c != '.')).isEmpty with
                | false => exact Or.inl rfl
                | true =>
                  cases hB : ((s.dropWhile (fun c => c != '.')).tail).isEmpty with
                  | false => exact Or.inr rfl
                  | true => rw [hA, hB] at hnemp; simp at hnemp
              rcases hor with hx | hx
              · obtain ⟨c, hc⟩ : ∃ c, c ∈ s.takeWhile (fun c => c != '.') := by
                  cases hcc : s.takeWhile (fun c => c != '.') with
                  | nil => rw [hcc] at hx; simp at hx
                  | cons a t => exact ⟨a, by simp⟩
                have hdig := List.all_eq_true.mp hw c hc
                have hcs : c ∈ s := by
                  rw [hs]
                  exact List.mem_append.mpr (Or.inl hc)
                exact (h4 c hcs) hdig
              · obtain ⟨c, hc⟩ : ∃ c, c ∈ (s.dropWhile (fun c => c != '.')).tail := by
                  cases hcc : (s.dropWhile (fun c => c != '.')).tail with
                  | nil => rw [hcc] at hx; simp at hx
                  | cons a t => exact ⟨a, by simp⟩
                have hdig := List.all_eq_true.mp hf c hc
                have hcs : c ∈ s := by
                  rw [hs]
                  exact List.mem_append.mpr (Or.inr (List.mem_cons.mpr (Or.inr hc)))
                exact (h4 c hcs) hdig
          simp only [parse_decimal_number]
          rw [if_neg he, if_neg hmm, if_neg hd0, if_pos hd1, if_neg hcondf]
        · simp only [parse_decimal_number]
          rw [if_neg he, if_neg hmm, if_neg hd0, if_neg hd1]

theorem C4_malformed_literals_witness :
    malformedLiteral ("-1".toList) = true ∧
    parse_decimal_number ("-1".toList) ONE_TERA_GAS =
      .error (.InvalidNumber ("-1".toList)) :=
  ⟨by decide, C4_malformed_literals.1 ("-1".toList) ONE_TERA_GAS (by decide)⟩

/-! ## Decimal rendering and the serde string encoding (C9, C10) -/

theorem digitToChar_toNat : ∀ d < 10, (digitToChar d).toNat = 48 + d := by decide

theorem digitToChar_isDigit : ∀ d < 10, isAsciiDigit (digitToChar d) = true := by decide

theorem decCharsAux_succ (fuel n : Nat) :
    decCharsAux (fuel + 1) n =
      if n = 0 then [] else digitToChar (n % 10) :: decCharsAux fuel (n / 10) := rfl

theorem decCharsAux_eq (fuel : Nat) : ∀ n : Nat, n ≤ fuel →
    decCharsAux fuel n = (Nat.digits 10 n).map digitToChar := by
  induction fuel with
  | zero =>
    intro n hn
    have h0 : n = 0 := Nat.le_zero.mp hn
    subst h0
    simp [Nat.digits_zero]
    rfl
  | succ fuel ih =>
    intro n hn
    rw [decCharsAux_succ]
    by_cases h0 : n = 0
    · subst h0
      simp [Nat.digits_zero]
    · rw [if_neg h0]
      rw [Nat.digits_def' (b := 10) (by norm_num) (Nat.pos_of_ne_zero h0), List.map_cons]
      congr 1
      apply ih
      have : n / 10 < n := Nat.div_lt_self (Nat.pos_of_ne_zero h0) (by norm_num)
      omega

theorem natToDecChars_eq {n : Nat} (h : n ≠ 0) :
    natToDecChars n = ((Nat.digits 10 n).map digitToChar).reverse := by
  unfold natToDecChars
  rw [if_neg h, decCharsAux_eq n n (Nat.le_refl n)]

theorem natToDecChars_all_digits (n : Nat) : (natToDecChars n).all isAsciiDigit = true := by
  by_cases h : n = 0
  · subst h; decide
  · rw [natToDecChars_eq h, List.all_eq_true]
    intro c hc
    rw [List.mem_reverse] at hc
    rcases List.mem_map.mp hc with ⟨d, hd, rfl⟩
    exact digitToChar_isDigit d (Nat.digits_lt_base (by norm_num) hd)

theorem natToDecChars_ascii (n : Nat) :
    (natToDecChars n).all (fun c => c.toNat ≤ 127) = true := by
  rw [List.all_eq_true]
  intro c hc
  have hdig : isAsciiDigit c = true :=
    List.all_eq_true.mp (natToDecChars_all_digits n) c hc
  simp only [isAsciiDigit, Bool.and_eq_true, decide_eq_true_eq] at hdig
  simp only [decide_eq_true_eq]
  omega

theorem natToDecChars_length_le {n : Nat} (h : n ≤ U64_MAX) :
    (natToDecChars n).length ≤ 20 := by
  by_cases h0 : n = 0
  · subst h0; decide
  · rw [natToDecChars_eq h0, List.length_reverse, List.length_map]
    rw [Nat.digits_len 10 n (by norm_num) h0]
    have hlt : n < 10 ^ 20 := lt_of_le_of_lt h (by norm_num [U64_MAX])
    have hlog : Nat.log 10 n < 20 := (Nat.lt_pow_iff_log_lt (by norm_num) h0).mp hlt
    omega

theorem natToDecChars_ne_nil (n : Nat) : natToDecChars n ≠ [] := by
  by_cases h : n = 0
  · subst h; decide
  · rw [natToDecChars_eq h]
    simp [Nat.digits_ne_nil_iff_ne_zero, h]

theorem natOfDigits_rev_map (L : List Nat) (hL : ∀ d ∈ L, d < 10) :
    natOfDigits ((L.map digitToChar).reverse) = Nat.ofDigits 10 L := by
  induction L with
  | nil => simp [natOfDigits_nil, Nat.ofDigits_nil]
  | cons d L ih =>
    rw [List.map_cons, List.reverse_cons, natOfDigits_append]
    have hd : d < 10 := hL d (by simp)
    have hL' : ∀ x ∈ L, x < 10 := fun x hx => hL x (by simp [hx])
    rw [ih hL']
    have hone : natOfDigits [digitToChar d] = d := by
      show natOfDigitsAux 0 [digitToChar d] = d
      rw [natOfDigitsAux_cons, natOfDigitsAux_nil]
      rw [digitToChar_toNat d hd]
      omega
    rw [hone, Nat.ofDigits_cons]
    simp only [List.length_singleton, pow_one]
    ring

theorem natOfDigits_natToDecChars (n : Nat) : natOfDigits (natToDecChars n) = n := by
  by_cases h0 : n = 0
  · subst h0; decide
  · rw [natToDecChars_eq h0,
      natOfDigits_rev_map _ (fun d hd => Nat.digits_lt_base (by norm_num) hd)]
    exact_mod_cast Nat.ofDigits_digits 10 n

theorem head_not_plus {l : List Char} (hl : l.all isAsciiDigit = true) :
    ¬(l.head? = some '+') := by
  intro h
  cases l with
  | nil => simp at h
  | cons a t =>
    rw [List.head?_cons] at h
    have ha : isAsciiDigit a = true := List.all_eq_true.mp hl a (by simp)
    have haeq : a = '+' := Option.some.inj h
    subst haeq
    exact absurd ha (by decide)

/-- C9: the textual (serde) encoding of any `u64` magnitude is its plain
decimal digit string — every character an ASCII digit, no unit suffix or
separators — and decoding that string restores exactly the same magnitude. -/
theorem C9_serde_roundtrip :
    ∀ m : Nat, m ≤ U64_MAX →
      serializeNearGas (NearGas.from_gas m) = some (natToDecChars m) ∧
      (natToDecChars m).all isAsciiDigit = true ∧
      deserializeNearGas (natToDecChars m) = some (NearGas.from_gas m) := by
  intro m hm
  have hlen := natToDecChars_length_le hm
  have hascii := natToDecChars_ascii m
  have hdig := natToDecChars_all_digits m
  refine ⟨?_, hdig, ?_⟩
  · show serializeNearGas ⟨m⟩ = some (natToDecChars m)
    simp only [serializeNearGas]
    rw [if_pos]
    rw [Bool.and_eq_true]
    exact ⟨by simpa using hlen, hascii⟩
  · simp only [deserializeNearGas, parse_u64]
    rw [if_neg (head_not_plus hdig)]
    have hne : ¬((natToDecChars m).isEmpty = true) := fun hc =>
      natToDecChars_ne_nil m (List.isEmpty_iff.mp hc)
    rw [if_neg hne, if_pos hdig, natOfDigits_natToDecChars, if_pos hm]
    rfl

theorem C9_serde_roundtrip_witness :
    serializeNearGas (NearGas.from_gas 12345) = some (natToDecChars 12345) ∧
    (natToDecChars 12345).all isAsciiDigit = true ∧
    deserializeNearGas (natToDecChars 12345) = some (NearGas.from_gas 12345) :=
  C9_serde_roundtrip 12345 (by decide)

/-- C10: the serializer's error branches are dead — for every `u64` magnitude
the decimal rendering is at most 20 bytes (so the fixed 20-byte buffer write
succeeds), all its bytes are ASCII (so the UTF-8 check succeeds), and the
textual serializer returns the rendered string, never the custom error. -/
theorem C10_serializer_total :
    ∀ m : Nat, m ≤ U64_MAX →
      (natToDecChars m).length ≤ 20 ∧
      (natToDecChars m).all (fun c => c.toNat ≤ 127) = true ∧
      serializeNearGas (NearGas.from_gas m) ≠ none := by
  intro m hm
  have hlen := natToDecChars_length_le hm
  have hascii := natToDecChars_ascii m
  refine ⟨hlen, hascii, ?_⟩
  show serializeNearGas ⟨m⟩ ≠ none
  simp only [serializeNearGas]
  rw [if_pos]
  · exact Option.some_ne_none _
  · rw [Bool.and_eq_true]
    exact ⟨by simpa using hlen, hascii⟩

theorem C10_serializer_total_witness :
    (natToDecChars U64_MAX).length ≤ 20 ∧
    (natToDecChars U64_MAX).all (fun c => c.toNat ≤ 127) = true ∧
    serializeNearGas (NearGas.from_gas U64_MAX) ≠ none :=
  C10_serializer_total U64_MAX (Nat.le_refl U64_MAX)

/-! ## The split geometry of `from_str` on inputs without leading whitespace (C3) -/

theorem bool_eq_false {b : Bool} (h : ¬(b = true)) : b = false := by
  cases b with
  | false => rfl
  | true => exact absurd rfl h

theorem toNat_ofNat_of_lt {n : Nat} (h : n < 55296) : (Char.ofNat n).toNat = n := by
  have hv : n.isValidChar := Or.inl h
  simp [Char.ofNat, hv, Char.ofNatAux, Char.toNat]
  rfl

theorem utf8Len_toAsciiUppercase (c : Char) : utf8Len (toAsciiUppercase c) = utf8Len c := by
  unfold toAsciiUppercase
  by_cases h : (97 ≤ c.toNat && c.toNat ≤ 122) = true
  · rw [if_pos h]
    simp only [Bool.and_eq_true, decide_eq_true_eq] at h
    unfold utf8Len
    rw [toNat_ofNat_of_lt (by omega)]
    rw [if_pos (by omega : c.toNat - 32 < 0x80), if_pos (by omega : c.toNat < 0x80)]
  · rw [if_neg h]

theorem byteLen_nil : byteLen [] = 0 := rfl

theorem byteLen_cons (c : Char) (cs : List Char) :
    byteLen (c :: cs) = utf8Len c + byteLen cs := by
  unfold byteLen
  rw [List.map_cons, List.sum_cons]

theorem byteLen_toUpperList (l : List Char) : byteLen (toUpperList l) = byteLen l := by
  induction l with
  | nil => rfl
  | cons c cs ih =>
    show byteLen (toAsciiUppercase c :: toUpperList cs) = _
    rw [byteLen_cons, byteLen_cons, ih, utf8Len_toAsciiUppercase]

theorem utf8Len_pos (c : Char) : 1 ≤ utf8Len c := by
  unfold utf8Len
  split
  · omega
  · split
    · omega
    · split <;> omega

theorem splitAtByte_zero (l : List Char) : splitAtByte l 0 = some ([], l) := by
  cases l <;> rfl

theorem splitAtByte_cons_succ (c : Char) (cs : List Char) (n : Nat) :
    splitAtByte (c :: cs) (n + 1) =
      if utf8Len c ≤ n + 1 then
        (splitAtByte cs (n + 1 - utf8Len c)).map (fun p => (c :: p.1, p.2))
      else none := rfl

theorem splitAtByte_byteLen_append (xs ys : List Char) :
    splitAtByte (xs ++ ys) (byteLen xs) = some (xs, ys) := by
  induction xs with
  | nil => exact splitAtByte_zero ys
  | cons c cs ih =>
    rw [List.cons_append, byteLen_cons]
    have hpos := utf8Len_pos c
    obtain ⟨k, hk⟩ : ∃ k, utf8Len c + byteLen cs = k + 1 :=
      ⟨utf8Len c + byteLen cs - 1, by omega⟩
    rw [hk, splitAtByte_cons_succ, if_pos (by omega)]
    have h2 : k + 1 - utf8Len c = byteLen cs := by omega
    rw [h2, ih]
    rfl

theorem findAlphaByteIdx_none {s : List Char}
    (h : ∀ c ∈ s, isAsciiAlphabetic c = false) :
    findAlphaByteIdx s = none := by
  induction s with
  | nil => rfl
  | cons c cs ih =>
    unfold findAlphaByteIdx
    rw [if_neg (by simp [h c (by simp)]), ih (fun x hx => h x (by simp [hx]))]
    rfl

theorem findAlphaByteIdx_append {pre suf : List Char} {a : Char}
    (hpre : ∀ c ∈ pre, isAsciiAlphabetic c = false) (ha : isAsciiAlphabetic a = true) :
    findAlphaByteIdx (pre ++ a :: suf) = some (byteLen pre) := by
  induction pre with
  | nil =>
    show findAlphaByteIdx (a :: suf) = some (byteLen ([] : List Char))
    unfold findAlphaByteIdx
    rw [if_pos ha]
    rfl
  | cons c cs ih =>
    rw [List.cons_append]
    unfold findAlphaByteIdx
    rw [if_neg (by simp [hpre c (by simp)]), ih (fun x hx => hpre x (by simp [hx]))]
    show some (utf8Len c + byteLen cs) = some (byteLen (c :: cs))
    rw [byteLen_cons]

theorem dropWhile_append_nonws (xs : List Char) {a : Char} (ys : List Char)
    (ha : isRustWhitespace a = false) :
    List.dropWhile isRustWhitespace (xs ++ a :: ys) =
      List.dropWhile isRustWhitespace xs ++ a :: ys := by
  rw [List.dropWhile_append]
  by_cases hxe : (List.dropWhile isRustWhitespace xs).isEmpty = true
  · rw [if_pos hxe, List.isEmpty_iff.mp hxe, List.dropWhile_cons, if_neg (by simp [ha])]
    rfl
  · rw [if_neg hxe]

theorem trimRight_append_cons {pre suf : List Char} {a : Char}
    (ha : isRustWhitespace a = false) :
    trimRight (pre ++ a :: suf) = pre ++ a :: trimRight suf := by
  unfold trimRight
  have h1 : (pre ++ a :: suf).reverse = suf.reverse ++ a :: pre.reverse := by
    simp
  rw [h1, dropWhile_append_nonws _ _ ha]
  simp

theorem trimLeft_eq_of_head {a : Char} {t : List Char} (ha : isRustWhitespace a = false) :
    trimLeft (a :: t) = a :: t := by
  unfold trimLeft
  rw [List.dropWhile_cons, if_neg (by simp [ha])]

theorem exists_alpha_decomp {s : List Char} (h : ∃ c ∈ s, isAsciiAlphabetic c = true) :
    ∃ pre a suf, s = pre ++ a :: suf ∧ (∀ c ∈ pre, isAsciiAlphabetic c = false) ∧
      isAsciiAlphabetic a = true := by
  induction s with
  | nil =>
    rcases h with ⟨c, hc, _⟩
    simp at hc
  | cons b t ih =>
    by_cases hb : isAsciiAlphabetic b = true
    · exact ⟨[], b, t, rfl, by simp, hb⟩
    · have h' : ∃ c ∈ t, isAsciiAlphabetic c = true := by
        rcases h with ⟨c, hc, hca⟩
        rcases List.mem_cons.mp hc with rfl | hct
        · exact absurd hca hb
        · exact ⟨c, hct, hca⟩
      rcases ih h' with ⟨pre, a, suf, hs, hpre, ha⟩
      refine ⟨b :: pre, a, suf, by rw [hs]; rfl, ?_, ha⟩
      intro c hc
      rcases List.mem_cons.mp hc with rfl | hcp
      · exact bool_eq_false hb
      · exact hpre c hcp

theorem from_str_decomp {pre suf : List Char} {a : Char}
    (hpre : ∀ c ∈ pre, isAsciiAlphabetic c = false)
    (ha : isAsciiAlphabetic a = true)
    (htl : trimLeft (pre ++ a :: suf) = pre ++ a :: suf) :
    from_str (pre ++ a :: suf) =
      (if toUpperList (a :: trimRight suf) = "TGAS".toList ∨
          toUpperList (a :: trimRight suf) = "TERAGAS".toList then
        match parse_decimal_number (trim (toUpperList pre)) ONE_TERA_GAS with
        | .ok n => .ok (NearGas.from_gas n)
        | .error e => .err (.IncorrectNumber e)
      else if toUpperList (a :: trimRight suf) = "GIGAGAS".toList ∨
          toUpperList (a :: trimRight suf) = "GGAS".toList then
        match parse_decimal_number (trim (toUpperList pre)) ONE_GIGA_GAS with
        | .ok n => .ok (NearGas.from_gas n)
        | .error e => .err (.IncorrectNumber e)
      else .err (.IncorrectUnit (pre ++ a :: suf))) ∧
    unitSuffix (pre ++ a :: suf) = toUpperList (a :: trimRight suf) := by
  have hanws : isRustWhitespace a = false := isRustWhitespace_eq_false_of_alpha ha
  have htrim : trim (pre ++ a :: suf) = pre ++ a :: trimRight suf := by
    unfold trim
    rw [htl, trimRight_append_cons hanws]
  have hfind : findAlphaByteIdx (pre ++ a :: suf) = some (byteLen pre) :=
    findAlphaByteIdx_append hpre ha
  have hupper : toUpperList (pre ++ a :: trimRight suf) =
      toUpperList pre ++ toUpperList (a :: trimRight suf) := by
    unfold toUpperList
    rw [List.map_append]
  have hsplit : splitAtByte (toUpperList (pre ++ a :: trimRight suf)) (byteLen pre) =
      some (toUpperList pre, toUpperList (a :: trimRight suf)) := by
    rw [hupper, ← byteLen_toUpperList pre, splitAtByte_byteLen_append]
  constructor
  · simp only [from_str, htrim, hfind, hsplit]
  · unfold unitSuffix
    rw [htrim]
    have hdw := (@takeWhile_dropWhile_append_cons (fun c => !isAsciiAlphabetic c) pre
      (trimRight suf) a (fun c hc => by simp [hpre c hc]) (by simp [ha])).2
    rw [hdw]

/-- C3 (amended to inputs with no leading whitespace, i.e. `trimLeft s = s`):
`from_str` returns the unrecognized-unit error carrying the full original
input exactly when the input has no ASCII-alphabetic character at all, or the
uppercased suffix of the trimmed input from its first ASCII-alphabetic
character is none of TGAS, TERAGAS, GIGAGAS, GGAS; whenever the
unrecognized-unit error is returned it carries the original input; the claim's
two examples `"0 pas"` and `"0"` fail this way. -/
theorem C3_unrecognized_unit :
    (∀ s : List Char, trimLeft s = s →
      ((from_str s = .err (.IncorrectUnit s)) ↔
        ((∀ c ∈ s, isAsciiAlphabetic c = false) ∨ unitSuffix s ∉ recognizedUnits)) ∧
      (∀ e, from_str s = .err (.IncorrectUnit e) → e = s)) ∧
    from_str ("0 pas".toList) = .err (.IncorrectUnit ("0 pas".toList)) ∧
    from_str ("0".toList) = .err (.IncorrectUnit ("0".toList)) := by
  refine ⟨?_, by decide, by decide⟩
  intro s htl
  by_cases hex : ∃ c ∈ s, isAsciiAlphabetic c = true
  · rcases exists_alpha_decomp hex with ⟨pre, a, suf, rfl, hpre, ha⟩
    rcases from_str_decomp hpre ha htl with ⟨hfs, hsuf⟩
    have hamem : a ∈ pre ++ a :: suf := by simp
    by_cases h1 : toUpperList (a :: trimRight suf) = "TGAS".toList ∨
        toUpperList (a :: trimRight suf) = "TERAGAS".toList
    · rw [hfs, if_pos h1]
      constructor
      · constructor
        · intro hcontra
          exfalso
          cases hp : parse_decimal_number (trim (toUpperList pre)) ONE_TERA_GAS with
          | ok n => rw [hp] at hcontra; simp at hcontra
          | error e => rw [hp] at hcontra; simp at hcontra
        · intro hrhs
          exfalso
          rcases hrhs with hnone | hnotmem
          · have hfa := hnone a hamem
            rw [ha] at hfa
            simp at hfa
          · apply hnotmem
            rw [hsuf]
            rcases h1 with h1 | h1 <;> rw [h1] <;> decide
      · intro e hcontra
        exfalso
        cases hp : parse_decimal_number (trim (toUpperList pre)) ONE_TERA_GAS with
        | ok n => rw [hp] at hcontra; simp at hcontra
        | error e2 => rw [hp] at hcontra; simp at hcontra
    · by_cases h2 : toUpperList (a :: trimRight suf) = "GIGAGAS".toList ∨
          toUpperList (a :: trimRight suf) = "GGAS".toList
      · rw [hfs, if_neg h1, if_pos h2]
        constructor
        · constructor
          · intro hcontra
            exfalso
            cases hp : parse_decimal_number (trim (toUpperList pre)) ONE_GIGA_GAS with
            | ok n => rw [hp] at hcontra; simp at hcontra
            | error e => rw [hp] at hcontra; simp at hcontra
          · intro hrhs
            exfalso
            rcases hrhs with hnone | hnotmem
            · have hfa := hnone a hamem
              rw [ha] at hfa
              simp at hfa
            · apply hnotmem
              rw [hsuf]
              rcases h2 with h2 | h2 <;> rw [h2] <;> decide
        · intro e hcontra
          exfalso
          cases hp : parse_decimal_number (trim (toUpperList pre)) ONE_GIGA_GAS with
          | ok n => rw [hp] at hcontra; simp at hcontra
          | error e2 => rw [hp] at hcontra; simp at hcontra
      · rw [hfs, if_neg h1, if_neg h2]
        push_neg at h1 h2
        refine ⟨⟨fun _ => Or.inr ?_, fun _ => rfl⟩,
          fun e h => (NearGasError.IncorrectUnit.inj (FromStrResult.err.inj h)).symm⟩
        intro hmem
        rw [hsuf] at hmem
        simp only [recognizedUnits, List.map_cons, List.map_nil, List.mem_cons,
          List.not_mem_nil, or_false] at hmem
        rcases hmem with h | h | h | h
        · exact h1.1 h
        · exact h1.2 h
        · exact h2.1 h
        · exact h2.2 h
  · have hall : ∀ c ∈ s, isAsciiAlphabetic c = false := fun c hc =>
      bool_eq_false (fun hv => hex ⟨c, hc, hv⟩)
    have hfs : from_str s = .err (.IncorrectUnit s) := by
      simp only [from_str, findAlphaByteIdx_none hall]
    rw [hfs]
    exact ⟨⟨fun _ => Or.inl hall, fun _ => rfl⟩,
      fun e h => (NearGasError.IncorrectUnit.inj (FromStrResult.err.inj h)).symm⟩

/-- C3 as stated is false: `" 1 TGas"` has an ASCII-alphabetic character, its
suffix from the first ASCII-alphabetic character uppercases to the recognized
token `"TGAS"`, yet `from_str` returns the unrecognized-unit error (the split
index was found in the untrimmed input but applied to the trimmed copy). -/
theorem C3_unrecognized_unit_counterexample :
    from_str (" 1 TGas".toList) = .err (.IncorrectUnit (" 1 TGas".toList)) ∧
    unitSuffix (" 1 TGas".toList) = "TGAS".toList ∧
    "TGAS".toList ∈ recognizedUnits ∧
    ('T' ∈ (" 1 TGas".toList) ∧ isAsciiAlphabetic 'T' = true) := by
  refine ⟨by decide, by decide, by decide, by decide, by decide⟩

theorem C3_unrecognized_unit_witness :
    (from_str ("0 pas".toList) = .err (.IncorrectUnit ("0 pas".toList)) ↔
      ((∀ c ∈ ("0 pas".toList), isAsciiAlphabetic c = false) ∨
        unitSuffix ("0 pas".toList) ∉ recognizedUnits)) ∧
    (∀ e, from_str ("0 pas".toList) = .err (.IncorrectUnit e) → e = ("0 pas".toList)) :=
  C3_unrecognized_unit.1 ("0 pas".toList) (by decide)
